import Mathlib

/-!
Verification of the concurrent organization-tree crawler (`src/main.go`).

The development shallowly embeds the program:

* The data model (`Organization`, `Environment`, `Application`, `Node`) is a
  direct translation of the Go structs in `src/main.go` lines 13-53.
* The concurrent tree-construction phase (`InitTree` / `buildOrgTree`,
  lines 65-99) is embedded as a small-step state machine over a heap of
  node entries.  Each entry records one allocated `Node` together with the
  state of the goroutine running `buildOrgTree` on it: the loop iterations
  still to run (`pending`) and whether its deferred `g.Done()` has executed
  (`finished`).  One step is either one iteration of the loop body
  (fetch the child, append it to the parent's child list under the parent's
  lock, `g.Add(1)`, spawn the child's goroutine) or the deferred `g.Done()`
  of a task whose loop is exhausted.  Interleaving of goroutines is modelled
  by letting a step pick any entry; `counter` is the `sync.WaitGroup`
  counter.
* `flattenTree`, `generateApplications` and the HTTP-status handling of
  `getOrganizationMetrics` / `getDeployedArtifacts` are embedded as pure
  functions, with the remote services abstracted as functions from
  identifiers to payloads.
-/

namespace Chgentree

/-- The nested `type` struct inside `Workers` (`src/main.go` lines 42-44). -/
structure WorkersType where
  cpu : String

/-- The anonymous `workers` struct of `Application` (`src/main.go` lines 41-48). -/
structure Workers where
  type : WorkersType
  amount : Int
  remainingOrgWorkers : Float
  totalOrgWorkers : Float

/-- The `muleVersion` struct of `Application` (`src/main.go` lines 50-52). -/
structure MuleVersionT where
  version : String

/-- `Application` (`src/main.go` lines 36-53). -/
structure Application where
  domain : String
  fullDomain : String
  status : String
  fileName : String
  workers : Workers
  lastUpdateTime : Int
  muleVersion : MuleVersionT

/-- `Environment` (`src/main.go` lines 29-33). -/
structure Environment where
  id : String
  name : String
  applications : List Application

/-- `Organization` (`src/main.go` lines 21-26). -/
structure Organization where
  name : String
  id : String
  subOrganizationIds : List String
  environments : List Environment

/-- The Go zero value of `Organization`: what `var organization Organization`
holds when `json.Unmarshal` fails and its error is discarded
(`src/main.go` lines 71-72 and 87-88). -/
def zeroOrganization : Organization :=
  { name := "", id := "", subOrganizationIds := [], environments := [] }

instance : Inhabited Organization := ⟨zeroOrganization⟩

/-- `getOrganizationMetrics` composed with `json.Unmarshal` whose error is
discarded (`src/main.go` lines 70-72, 86-88): resolving an identifier yields
the decoded `Organization`, or the zero value when decoding fails.
`P` is the type of raw response bodies (`[]byte` in Go). -/
def resolveOrganization {P : Type} (fetch : String → P)
    (unmarshalOrg : P → Option Organization) : String → Organization :=
  fun orgID => (unmarshalOrg (fetch orgID)).getD zeroOrganization

/-! ## The tree-construction state machine (`InitTree` / `buildOrgTree`) -/

/-- One allocated `Node` (`src/main.go` lines 13-18) together with the state
of the `buildOrgTree` invocation that owns it.

* `fetchedId` is the identifier that was passed to `getOrganizationMetrics`
  to create this node (ghost data, used only in specifications).
* `org` is `Node.BusinessOrganization`.
* `childIds` is `Node.Children`: heap indices of the child nodes, in append
  order.
* `pending` is the suffix of `org.SubOrganizationIds` that the goroutine
  running `buildOrgTree` on this node has not yet looped over.
* `finished` records whether the goroutine's deferred `g.Done()` has run. -/
structure NodeEntry where
  fetchedId : String
  org : Organization
  childIds : List Nat
  pending : List String
  finished : Bool

instance : Inhabited NodeEntry :=
  ⟨{ fetchedId := "", org := zeroOrganization, childIds := [], pending := [],
     finished := false }⟩

/-- The global state of the construction phase: the heap of allocated nodes
(indices are node identities) and the `sync.WaitGroup` counter `g`. -/
structure BuildState where
  nodes : List NodeEntry
  counter : Nat

/-- Heap lookup, total with the default entry out of range. -/
def entryAt (ns : List NodeEntry) (i : Nat) : NodeEntry :=
  (ns[i]?).getD default

/-- Identifier a heap node was fetched from. -/
def fidAt (ns : List NodeEntry) (i : Nat) : String :=
  (entryAt ns i).fetchedId

/-- Allocation of a child node inside the loop body of `buildOrgTree`
(`src/main.go` lines 86-90): fetch and decode identifier `v`, construct a
`Node` with nil children; the goroutine that will expand it has the full
`SubOrganizationIds` list ahead of it and has not signalled done. -/
def newEntry (dir : String → Organization) (v : String) : NodeEntry :=
  { fetchedId := v, org := dir v, childIds := [], pending := (dir v).subOrganizationIds,
    finished := false }

/-- The state right after the sequential prefix of `InitTree`
(`src/main.go` lines 66-77): the root node is constructed from the root
identifier, `g.Add(1)` has run, and `buildOrgTree` starts on the root. -/
def initTreeState (dir : String → Organization) (rootId : String) : BuildState :=
  { nodes := [{ fetchedId := rootId, org := dir rootId, childIds := [],
                pending := (dir rootId).subOrganizationIds, finished := false }],
    counter := 1 }

/-- One iteration of the `buildOrgTree` loop (`src/main.go` lines 85-97) run
by the goroutine owning heap node `i`: consume the next pending identifier
`v`, fetch and decode it, append the new node to `p.Children` under `p.mux`,
`g.Add(1)`, and spawn the child's goroutine.  `none` when node `i` does not
exist or its loop is exhausted. -/
def buildOrgTreeIter (dir : String → Organization) (i : Nat) (s : BuildState) :
    Option BuildState :=
  match s.nodes[i]? with
  | none => none
  | some e =>
    match e.pending with
    | [] => none
    | v :: rest =>
      some { nodes := (s.nodes.set i { e with childIds := e.childIds ++ [s.nodes.length],
                                              pending := rest }) ++ [newEntry dir v],
             counter := s.counter + 1 }

/-- The deferred `g.Done()` of the `buildOrgTree` invocation owning heap
node `i` (`src/main.go` line 84): runs once the loop is exhausted and marks
the task done, decrementing the `WaitGroup` counter. -/
def buildOrgTreeDone (i : Nat) (s : BuildState) : Option BuildState :=
  match s.nodes[i]? with
  | none => none
  | some e =>
    match e.pending, e.finished with
    | [], false =>
      some { nodes := s.nodes.set i { e with finished := true }, counter := s.counter - 1 }
    | _, _ => none

/-- One scheduler step of the construction phase: some goroutine either runs
one loop iteration or signals completion.  Quantifying over all step
sequences models every possible interleaving (arbitrary delays of the
individual `getOrganizationMetrics` calls). -/
inductive BuildStep (dir : String → Organization) : BuildState → BuildState → Prop where
  | iter (i : Nat) (s s' : BuildState) : buildOrgTreeIter dir i s = some s' →
      BuildStep dir s s'
  | didFinish (i : Nat) (s s' : BuildState) : buildOrgTreeDone i s = some s' →
      BuildStep dir s s'

/-- States reachable by the construction phase started on `rootId`. -/
def Reachable (dir : String → Organization) (rootId : String) (s : BuildState) : Prop :=
  Relation.ReflTransGen (BuildStep dir) (initTreeState dir rootId) s

/-! ## The intended hierarchy, read off the remote directory -/

/-- Number of nodes of the hierarchy that the remote directory reports below
identifier `v`, cut off at recursion depth `fuel`. -/
def specCount (dir : String → Organization) : Nat → String → Nat
  | 0, _ => 1
  | fuel + 1, v => 1 + ((dir v).subOrganizationIds.map (specCount dir fuel)).sum

/-- The hierarchy below identifier `v` has depth at most `fuel`; this is the
finiteness/acyclicity assumption on the remote directory. -/
def depthLe (dir : String → Organization) : Nat → String → Prop
  | 0, v => (dir v).subOrganizationIds = []
  | fuel + 1, v => ∀ w ∈ (dir v).subOrganizationIds, depthLe dir fuel w

/-- Depth-first list of the heap indices of the tree rooted at heap index
`i`, following `childIds` pointers, cut off at depth `fuel`. -/
def heapIndices (ns : List NodeEntry) : Nat → Nat → List Nat
  | 0, i => [i]
  | fuel + 1, i => i :: ((entryAt ns i).childIds.map (heapIndices ns fuel)).flatten

/-! ## The construction-phase invariant -/

/-- The invariant of the construction state machine.  `splitIds` is the key
per-node fact: the identifiers of the children appended so far are exactly
the processed prefix of `SubOrganizationIds`, in order, with `pending` the
unprocessed suffix.  `counterEq` is the `WaitGroup` discipline: the counter
equals the number of registered-but-not-done tasks.  `perm` says the heap is
exactly the tree reachable from the root: the depth-first traversal from
index 0 visits every allocated node exactly once. -/
structure Inv (dir : String → Organization) (rootId : String) (s : BuildState) :
    Prop where
  nonempty : s.nodes ≠ []
  rootFid : fidAt s.nodes 0 = rootId
  orgEq : ∀ (i : Nat) (e : NodeEntry), s.nodes[i]? = some e → e.org = dir e.fetchedId
  splitIds : ∀ (i : Nat) (e : NodeEntry), s.nodes[i]? = some e →
    e.org.subOrganizationIds = e.childIds.map (fidAt s.nodes) ++ e.pending
  bounds : ∀ (i : Nat) (e : NodeEntry), s.nodes[i]? = some e →
    ∀ j ∈ e.childIds, i < j ∧ j < s.nodes.length
  chSorted : ∀ (i : Nat) (e : NodeEntry), s.nodes[i]? = some e → e.childIds.Pairwise (· < ·)
  finPending : ∀ (i : Nat) (e : NodeEntry), s.nodes[i]? = some e → e.finished = true → e.pending = []
  counterEq : s.counter = (s.nodes.filter (fun e => !e.finished)).length
  perm : (heapIndices s.nodes s.nodes.length 0).Perm (List.range s.nodes.length)


/-! ## The built tree as a value: `Node`, flattening, enrichment -/

/-- `Node` (`src/main.go` lines 13-18): an `Organization` plus the child
list; `mux` guards only construction and carries no data. -/
inductive Node where
  | mk (businessOrganization : Organization) (children : List Node)

/-- `Node.BusinessOrganization`. -/
def Node.businessOrganization : Node → Organization
  | Node.mk o _ => o

/-- `Node.Children`. -/
def Node.children : Node → List Node
  | Node.mk _ cs => cs

/-- Induction over `Node` with the inductive hypothesis for every child. -/
def Node.ind {motive : Node → Prop}
    (h : ∀ o cs, (∀ c ∈ cs, motive c) → motive (Node.mk o cs)) : ∀ t, motive t :=
  fun t =>
    match t with
    | Node.mk o cs => h o cs (fun c _hc => Node.ind h c)
termination_by t => sizeOf t
decreasing_by
  have hm := List.sizeOf_lt_of_mem _hc
  simp only [Node.mk.sizeOf_spec]
  omega

mutual

/-- Organizations of a tree in depth-first preorder: the node itself, then
its children left to right (the traversal order of `flattenTree`). -/
def treeOrgs : Node → List Organization
  | Node.mk o cs => o :: treeOrgsList cs

/-- Preorder organizations of a forest. -/
def treeOrgsList : List Node → List Organization
  | [] => []
  | c :: cs => treeOrgs c ++ treeOrgsList cs

end

/-- Display names of a tree in preorder. -/
def treeNames (t : Node) : List String := (treeOrgs t).map Organization.name

/-- Display names of a forest in preorder. -/
def treeNamesList (cs : List Node) : List String :=
  (treeOrgsList cs).map Organization.name

mutual

/-- `generateApplications` (`src/main.go` lines 176-190) with the remote
inventory abstracted as `deployed : environment id → decoded applications`:
for every environment of the node overwrite `Applications` with the fetched
list, then recurse into every child.  The goroutine fan-out affects only
scheduling, not the (deterministic) result. -/
def generateApplications (deployed : String → List Application) : Node → Node
  | Node.mk org cs =>
    Node.mk
      { org with environments := List.map (fun environment => { environment with applications := deployed environment.id }) org.environments }
      (generateApplicationsList deployed cs)

/-- The `for _, c := range p.Children` loop of `generateApplications`. -/
def generateApplicationsList (deployed : String → List Application) :
    List Node → List Node
  | [] => []
  | c :: cs => generateApplications deployed c :: generateApplicationsList deployed cs

end

/-- Go map assignment `orgMap[k] = v` on the model of `map[string]Organization`
as an association list: overwrite the binding when the key is present,
append a new binding otherwise. -/
def mapSet (orgMap : List (String × Organization)) (k : String) (v : Organization) :
    List (String × Organization) :=
  if orgMap.any (fun p => p.1 == k) then
    orgMap.map (fun p => if p.1 == k then (k, v) else p)
  else orgMap ++ [(k, v)]

mutual

/-- `flattenTree` (`src/main.go` lines 192-198): store the node's
`Organization` in the map under its display name, then recurse into every
child, threading the (by-reference) map through. -/
def flattenTree : Node → List (String × Organization) → List (String × Organization)
  | Node.mk org cs, orgMap => flattenTreeList cs (mapSet orgMap org.name org)

/-- The `for _, c := range p.Children` loop of `flattenTree`. -/
def flattenTreeList : List Node → List (String × Organization) → List (String × Organization)
  | [], m => m
  | c :: cs, m => flattenTreeList cs (flattenTree c m)

end

/-! ## HTTP status handling of the two fetch helpers -/

/-- An HTTP response after `client.Do` succeeded at the transport level:
`resp.StatusCode` and the raw body `resp.Body`, of abstract type `P`. -/
structure HttpResponse (P : Type) where
  statusCode : Nat
  body : P

/-- `http.StatusOK`. -/
def statusOK : Nat := 200

/-- What a fetch helper does after receiving a response: either return the
body to its caller (the process continues) or terminate the whole process
with the given exit code (`os.Exit`). -/
inductive FetchOutcome (P : Type) where
  | body (b : P)
  | processExit (code : Nat)

/-- The status handling of `getOrganizationMetrics` (`src/main.go` lines
117-124): a non-OK status is only printed (`fmt.Println`), then the body is
read and returned either way.  Result: outcome plus printed log lines. -/
def getOrganizationMetricsStatus {P : Type} (resp : HttpResponse P) :
    FetchOutcome P × List (String × Nat) :=
  if resp.statusCode ≠ statusOK then
    (FetchOutcome.body resp.body, [("Non-OK HTTP status:", resp.statusCode)])
  else
    (FetchOutcome.body resp.body, [])

/-- The status handling of `getDeployedArtifacts` (`src/main.go` lines
143-151): a non-OK status prints and calls `os.Exit(1)`; otherwise the body
is read and returned. -/
def getDeployedArtifactsStatus {P : Type} (resp : HttpResponse P) :
    FetchOutcome P × List (String × Nat) :=
  if resp.statusCode ≠ statusOK then
    (FetchOutcome.processExit 1, [("Non-OK HTTP status:", resp.statusCode)])
  else
    (FetchOutcome.body resp.body, [])

/-! ## The flag check at the top of `main` -/

/-- Observable result of a whole process run: the exit code, the remote
calls made, and the output files written. -/
structure MainOutcome where
  exitCode : Nat
  remoteCalls : List String
  filesWritten : List String

/-- The start of `main` (`src/main.go` lines 215-251): after flag parsing,
`main` checks `(*rootID == "") || (*username == "") || (*password == "")`
and exits with status 1 before `InitTree` runs — so before any remote call
is made and before any output file is written.  The rest of `main` (the
remote traversal and the two file writes) is abstracted as `rest`. -/
def mainRun (rootid username password : String) (rest : MainOutcome) : MainOutcome :=
  if rootid = "" ∨ username = "" ∨ password = "" then
    { exitCode := 1, remoteCalls := [], filesWritten := [] }
  else
    rest

/-! ## Concrete directories and runs used as test instances -/

/-- A one-node hierarchy: the root has no children. -/
def orgOne : Organization :=
  { name := "One", id := "org-1", subOrganizationIds := [], environments := [] }

/-- A directory in which every identifier resolves to the childless `orgOne`. -/
def dirOne : String → Organization := fun _ => orgOne

/-- The quiescent state of the run of `InitTree` on `dirOne`. -/
def sOneFin : BuildState :=
  { nodes := [⟨"org-1", orgOne, [], [], true⟩], counter := 0 }

/-- A three-node hierarchy `r → [a, b]` with `a` and `b` childless. -/
def orgR : Organization :=
  { name := "R", id := "r", subOrganizationIds := ["a", "b"], environments := [] }

def orgA : Organization :=
  { name := "A", id := "a", subOrganizationIds := [], environments := [] }

def orgB : Organization :=
  { name := "B", id := "b", subOrganizationIds := [], environments := [] }

def dir7 : String → Organization :=
  fun v => if v = "r" then orgR else if v = "a" then orgA else orgB

/-- An intermediate state of a run on `dir7`: both children are discovered,
the task for `"b"` has already signalled done while the task for `"a"` has
not (so `"b"` completed before `"a"`). -/
def s7mid : BuildState :=
  { nodes := [⟨"r", orgR, [1, 2], [], false⟩, ⟨"a", orgA, [], [], false⟩,
              ⟨"b", orgB, [], [], true⟩],
    counter := 2 }

/-- The quiescent state of that same run. -/
def s7fin : BuildState :=
  { nodes := [⟨"r", orgR, [1, 2], [], true⟩, ⟨"a", orgA, [], [], true⟩,
              ⟨"b", orgB, [], [], true⟩],
    counter := 0 }

/-- A root whose payload decodes but whose single child's payload does not. -/
def orgRootW : Organization :=
  { name := "Root", id := "rootW", subOrganizationIds := ["bad"], environments := [] }

/-- The raw-body decoder of the decode-failure run: the root body decodes to
`orgRootW`, anything else fails to decode. -/
def unmarshalW : String → Option Organization :=
  fun p => if p = "rootW" then some orgRootW else none

/-- The directory of the decode-failure run, with the body of an identifier
being the identifier itself. -/
def dirW : String → Organization :=
  resolveOrganization (fun x => x) unmarshalW

/-- The quiescent state of the decode-failure run. -/
def sWFin : BuildState :=
  { nodes := [⟨"rootW", orgRootW, [1], [], true⟩,
              ⟨"bad", zeroOrganization, [], [], true⟩],
    counter := 0 }

/-- Organizations and trees for the flatten test instances: the tree
`A:[B, C]` with distinct names, and a two-node tree whose organizations are
distinct but share the display name `X`. -/
def orgNA : Organization :=
  { name := "A", id := "idA", subOrganizationIds := ["idB", "idC"], environments := [] }

def orgNB : Organization :=
  { name := "B", id := "idB", subOrganizationIds := [], environments := [] }

def orgNC : Organization :=
  { name := "C", id := "idC", subOrganizationIds := [], environments := [] }

def tABC : Node := Node.mk orgNA [Node.mk orgNB [], Node.mk orgNC []]

def orgX1 : Organization :=
  { name := "X", id := "id1", subOrganizationIds := ["id2"], environments := [] }

def orgX2 : Organization :=
  { name := "X", id := "id2", subOrganizationIds := [], environments := [] }

def tXX : Node := Node.mk orgX1 [Node.mk orgX2 []]

/-! ## Heap-access lemmas -/

theorem entryAt_of_get (ns : List NodeEntry) (i : Nat) (e : NodeEntry)
    (h : ns[i]? = some e) : entryAt ns i = e := by
  simp [entryAt, h]

theorem entryAt_oob (ns : List NodeEntry) (k : Nat) (h : ns.length ≤ k) :
    entryAt ns k = default := by
  simp [entryAt, List.getElem?_eq_none_iff.mpr h]

theorem entryAt_set_self (ns : List NodeEntry) (i : Nat) (e : NodeEntry)
    (h : i < ns.length) : entryAt (ns.set i e) i = e := by
  simp [entryAt, List.getElem?_set_self h]

theorem entryAt_set_ne (ns : List NodeEntry) (i k : Nat) (e : NodeEntry)
    (h : k ≠ i) : entryAt (ns.set i e) k = entryAt ns k := by
  simp [entryAt, List.getElem?_set_ne (Ne.symm h)]

theorem entryAt_grow_old (ns : List NodeEntry) (i k : Nat) (e c : NodeEntry)
    (hk : k < ns.length) (hne : k ≠ i) :
    entryAt ((ns.set i e) ++ [c]) k = entryAt ns k := by
  unfold entryAt
  rw [List.getElem?_append]
  simp only [List.length_set, hk, if_pos]
  rw [List.getElem?_set_ne (Ne.symm hne)]

theorem entryAt_grow_self (ns : List NodeEntry) (i : Nat) (e c : NodeEntry)
    (h : i < ns.length) : entryAt ((ns.set i e) ++ [c]) i = e := by
  unfold entryAt
  rw [List.getElem?_append]
  simp only [List.length_set, h, if_pos]
  rw [List.getElem?_set_self h]
  rfl

theorem entryAt_grow_new (ns : List NodeEntry) (i : Nat) (e c : NodeEntry) :
    entryAt ((ns.set i e) ++ [c]) ns.length = c := by
  unfold entryAt
  have h : (ns.set i e).length = ns.length := List.length_set ns i e
  rw [← h, List.getElem?_concat_length]
  rfl

theorem entryAt_grow_gt (ns : List NodeEntry) (i k : Nat) (e c : NodeEntry)
    (h : ns.length < k) : entryAt ((ns.set i e) ++ [c]) k = default := by
  apply entryAt_oob
  simp only [List.length_append, List.length_set, List.length_cons, List.length_nil]
  omega

theorem grow_get (ns : List NodeEntry) (i : Nat) (e' c : NodeEntry) (k : Nat)
    (ek : NodeEntry) (hi : i < ns.length)
    (h : ((ns.set i e') ++ [c])[k]? = some ek) :
    (k < ns.length ∧ k ≠ i ∧ ns[k]? = some ek) ∨ (k = i ∧ ek = e') ∨
      (k = ns.length ∧ ek = c) := by
  rw [List.getElem?_append] at h
  simp only [List.length_set] at h
  by_cases hk : k < ns.length
  · rw [if_pos hk] at h
    by_cases hki : k = i
    · subst hki
      rw [List.getElem?_set_self hi] at h
      exact Or.inr (Or.inl ⟨rfl, (Option.some.inj h).symm⟩)
    · rw [List.getElem?_set_ne (Ne.symm hki)] at h
      exact Or.inl ⟨hk, hki, h⟩
  · rw [if_neg hk] at h
    by_cases hkl : k = ns.length
    · subst hkl
      simp at h
      exact Or.inr (Or.inr ⟨rfl, h.symm⟩)
    · have : ns.length + 1 ≤ k - ns.length + ns.length := by omega
      rw [List.getElem?_eq_none_iff.mpr (by simp; omega)] at h
      cases h

theorem set_get (ns : List NodeEntry) (i : Nat) (e' : NodeEntry) (k : Nat)
    (ek : NodeEntry) (hi : i < ns.length) (h : (ns.set i e')[k]? = some ek) :
    (k ≠ i ∧ ns[k]? = some ek) ∨ (k = i ∧ ek = e') := by
  by_cases hki : k = i
  · subst hki
    rw [List.getElem?_set_self hi] at h
    exact Or.inr ⟨rfl, (Option.some.inj h).symm⟩
  · rw [List.getElem?_set_ne (Ne.symm hki)] at h
    exact Or.inl ⟨hki, h⟩

/-! ## Counting unfinished entries -/

theorem filter_length_set_congr (p : NodeEntry → Bool) :
    ∀ (ns : List NodeEntry) (i : Nat) (e e' : NodeEntry), ns[i]? = some e →
      p e' = p e → ((ns.set i e').filter p).length = (ns.filter p).length := by
  intro ns
  induction ns with
  | nil => intro i e e' h; cases h
  | cons x xs ih =>
    intro i e e' h hp
    cases i with
    | zero =>
      simp at h
      subst h
      simp only [List.set_cons_zero, List.filter_cons, hp]
      cases hx : p x <;> simp [hx]
    | succ j =>
      simp only [List.getElem?_cons_succ] at h
      simp only [List.set_cons_succ, List.filter_cons]
      have hih := ih j e e' h hp
      cases hx : p x <;> simp [hx] <;> omega

theorem filter_length_set_flip (p : NodeEntry → Bool) :
    ∀ (ns : List NodeEntry) (i : Nat) (e e' : NodeEntry), ns[i]? = some e →
      p e = true → p e' = false →
      ((ns.set i e').filter p).length + 1 = (ns.filter p).length := by
  intro ns
  induction ns with
  | nil => intro i e e' h; cases h
  | cons x xs ih =>
    intro i e e' h hp hp'
    cases i with
    | zero =>
      simp at h
      subst h
      simp only [List.set_cons_zero, List.filter_cons, hp, hp']
      simp
    | succ j =>
      simp only [List.getElem?_cons_succ] at h
      simp only [List.set_cons_succ, List.filter_cons]
      have hih := ih j e e' h hp hp'
      cases hx : p x <;> simp [hx] <;> omega

/-! ## Step inversion -/

theorem buildOrgTreeIter_eq_some {dir : String → Organization} {i : Nat}
    {s s' : BuildState} (h : buildOrgTreeIter dir i s = some s') :
    ∃ e v rest, s.nodes[i]? = some e ∧ e.pending = v :: rest ∧
      s' = { nodes := (s.nodes.set i { e with childIds := e.childIds ++ [s.nodes.length],
                                              pending := rest }) ++ [newEntry dir v],
             counter := s.counter + 1 } := by
  unfold buildOrgTreeIter at h
  cases h1 : s.nodes[i]? with
  | none =>
    simp only [h1] at h
    exact Option.noConfusion h
  | some e =>
    simp only [h1] at h
    cases h2 : e.pending with
    | nil =>
      simp only [h2] at h
      exact Option.noConfusion h
    | cons v rest =>
      simp only [h2] at h
      exact ⟨e, v, rest, rfl, h2, (Option.some.inj h).symm⟩

theorem buildOrgTreeDone_eq_some {i : Nat} {s s' : BuildState}
    (h : buildOrgTreeDone i s = some s') :
    ∃ e, s.nodes[i]? = some e ∧ e.pending = [] ∧ e.finished = false ∧
      s' = { nodes := s.nodes.set i { e with finished := true },
             counter := s.counter - 1 } := by
  unfold buildOrgTreeDone at h
  cases h1 : s.nodes[i]? with
  | none =>
    simp only [h1] at h
    exact Option.noConfusion h
  | some e =>
    simp only [h1] at h
    cases h2 : e.pending with
    | nil =>
      cases h3 : e.finished
      · simp only [h2, h3] at h
        refine ⟨e, rfl, h2, h3, ?_⟩
        rw [h2]
        exact (Option.some.inj h).symm
      · simp only [h2, h3] at h
        exact Option.noConfusion h
    | cons v rest =>
      simp only [h2] at h
      exact Option.noConfusion h

theorem inv_init (dir : String → Organization) (rootId : String) :
    Inv dir rootId (initTreeState dir rootId) := by
  refine ⟨?_, ?_, ?_, ?_, ?_, ?_, ?_, ?_, ?_⟩
  · simp [initTreeState]
  · rfl
  · intro i e h
    cases i with
    | zero => simp [initTreeState] at h; subst h; rfl
    | succ j => simp [initTreeState] at h
  · intro i e h
    cases i with
    | zero => simp [initTreeState] at h; subst h; rfl
    | succ j => simp [initTreeState] at h
  · intro i e h
    cases i with
    | zero => simp [initTreeState] at h; subst h; simp
    | succ j => simp [initTreeState] at h
  · intro i e h
    cases i with
    | zero => simp [initTreeState] at h; subst h; simp
    | succ j => simp [initTreeState] at h
  · intro i e h
    cases i with
    | zero => simp [initTreeState] at h; subst h; simp
    | succ j => simp [initTreeState] at h
  · rfl
  · show (heapIndices _ 1 0).Perm (List.range 1)
    simp [heapIndices, entryAt, initTreeState, List.range_succ]

/-! ## Lemmas about the depth-first index traversal -/

theorem get_entryAt (ns : List NodeEntry) (k : Nat) (h : k < ns.length) :
    ns[k]? = some (entryAt ns k) := by
  unfold entryAt
  rw [List.getElem?_eq_getElem h]
  rfl

theorem heapIndices_oob (ns : List NodeEntry) (k : Nat) (h : ns.length ≤ k) :
    ∀ fuel, heapIndices ns fuel k = [k] := by
  intro fuel
  cases fuel with
  | zero => rfl
  | succ f =>
    show k :: ((entryAt ns k).childIds.map (heapIndices ns f)).flatten = [k]
    rw [entryAt_oob ns k h]
    rfl

theorem heapIndices_no_children (ns : List NodeEntry) (k : Nat)
    (h : (entryAt ns k).childIds = []) : ∀ fuel, heapIndices ns fuel k = [k] := by
  intro fuel
  cases fuel with
  | zero => rfl
  | succ f =>
    show k :: ((entryAt ns k).childIds.map (heapIndices ns f)).flatten = [k]
    rw [h]
    rfl

theorem heapIndices_congr (ns₁ ns₂ : List NodeEntry)
    (h : ∀ k, (entryAt ns₁ k).childIds = (entryAt ns₂ k).childIds) :
    ∀ (fuel k : Nat), heapIndices ns₁ fuel k = heapIndices ns₂ fuel k := by
  intro fuel
  induction fuel with
  | zero => intro k; rfl
  | succ f ih =>
    intro k
    show k :: ((entryAt ns₁ k).childIds.map (heapIndices ns₁ f)).flatten
       = k :: ((entryAt ns₂ k).childIds.map (heapIndices ns₂ f)).flatten
    rw [h k, List.map_congr_left (fun j _ => ih j)]

theorem heapIndices_stable (ns : List NodeEntry)
    (Hb : ∀ (k : Nat) (ek : NodeEntry), ns[k]? = some ek →
      ∀ j ∈ ek.childIds, k < j ∧ j < ns.length) :
    ∀ (f g k : Nat), ns.length ≤ f + k → ns.length ≤ g + k →
      heapIndices ns f k = heapIndices ns g k := by
  intro f
  induction f with
  | zero =>
    intro g k hf hg
    rw [heapIndices_oob ns k (by omega), heapIndices_oob ns k (by omega)]
  | succ f ih =>
    intro g k hf hg
    by_cases hk : k < ns.length
    · cases g with
      | zero =>
        exfalso; omega
      | succ g' =>
        show k :: ((entryAt ns k).childIds.map (heapIndices ns f)).flatten
           = k :: ((entryAt ns k).childIds.map (heapIndices ns g')).flatten
        have hmap : (entryAt ns k).childIds.map (heapIndices ns f)
            = (entryAt ns k).childIds.map (heapIndices ns g') := by
          apply List.map_congr_left
          intro j hj
          have hb := Hb k (entryAt ns k) (get_entryAt ns k hk) j hj
          exact ih g' j (by omega) (by omega)
        rw [hmap]
    · rw [heapIndices_oob ns k (by omega), heapIndices_oob ns k (by omega)]

theorem perm_append_middle (a b x y : List Nat) :
    ((a ++ x) ++ (b ++ y)).Perm ((a ++ b) ++ (x ++ y)) := by
  apply List.perm_iff_count.mpr
  intro z
  simp only [List.count_append]
  omega

theorem flatten_perm_replicate (n i : Nat) (A A' : Nat → List Nat) :
    ∀ L : List Nat, (∀ j ∈ L, (A' j).Perm (List.replicate ((A j).count i) n ++ A j)) →
      ((L.map A').flatten).Perm
        (List.replicate (((L.map A).flatten).count i) n ++ (L.map A).flatten) := by
  intro L
  induction L with
  | nil => intro _; simp
  | cons j L ih =>
    intro h
    have h1 := h j (List.mem_cons_self j L)
    have h2 := ih (fun x hx => h x (List.mem_cons_of_mem j hx))
    simp only [List.map_cons, List.flatten_cons, List.count_append]
    refine List.Perm.trans (h1.append h2) ?_
    refine List.Perm.trans (perm_append_middle _ _ _ _) ?_
    rw [List.replicate_add]

/-- Splicing one freshly allocated child under node `i`: the depth-first
traversal of the grown heap is, up to permutation, the old traversal with the
new index inserted once per visit of `i`. -/
theorem heapIndices_splice (ns : List NodeEntry) (i : Nat) (e e' c : NodeEntry)
    (hi : ns[i]? = some e)
    (he' : e'.childIds = e.childIds ++ [ns.length])
    (hc : c.childIds = [])
    (Hb : ∀ (k : Nat) (ek : NodeEntry), ns[k]? = some ek →
      ∀ j ∈ ek.childIds, k < j ∧ j < ns.length) :
    ∀ (f k : Nat), ns.length ≤ f + k →
      (heapIndices ((ns.set i e') ++ [c]) f k).Perm
        (List.replicate ((heapIndices ns f k).count i) ns.length ++ heapIndices ns f k) := by
  have hilen : i < ns.length := by
    rcases List.getElem?_eq_some.mp hi with ⟨h, _⟩
    exact h
  intro f
  induction f with
  | zero =>
    intro k hk
    show ([k] : List Nat).Perm (List.replicate (([k] : List Nat).count i) ns.length ++ [k])
    have h0 : (([k] : List Nat).count i) = 0 := by
      simp only [List.count_cons, List.count_nil, Nat.zero_add, beq_iff_eq]
      rw [if_neg (by omega : ¬ k = i)]
    rw [h0]
    simp
  | succ f ih =>
    intro k hk
    by_cases hklen : k < ns.length
    · have hget := get_entryAt ns k hklen
      by_cases hki : k = i
      · subst hki
        have hek : entryAt ns k = e := entryAt_of_get ns k e hi
        have hLHS : heapIndices ((ns.set k e') ++ [c]) (f + 1) k
            = k :: (((e.childIds).map (heapIndices ((ns.set k e') ++ [c]) f)).flatten
                ++ [ns.length]) := by
          show k :: _ = _
          rw [entryAt_grow_self ns k e' c hilen, he', List.map_append]
          simp only [List.map_cons, List.map_nil, List.flatten_append, List.flatten_cons,
            List.flatten_nil, List.append_nil]
          rw [heapIndices_no_children ((ns.set k e') ++ [c]) ns.length
            (by rw [entryAt_grow_new]; exact hc) f]
        have hRHS : heapIndices ns (f + 1) k
            = k :: ((e.childIds).map (heapIndices ns f)).flatten := by
          show k :: _ = _
          rw [hek]
        rw [hLHS, hRHS]
        have hflat := flatten_perm_replicate ns.length k (heapIndices ns f)
          (heapIndices ((ns.set k e') ++ [c]) f) e.childIds
          (fun j hj => by
            have hb := Hb k e hi j hj
            exact ih j (by omega))
        apply List.perm_iff_count.mpr
        intro a
        have hflatc := hflat.count_eq a
        simp only [List.count_cons, List.count_append, List.count_nil,
          List.count_replicate, beq_iff_eq] at hflatc ⊢
        split_ifs at hflatc ⊢ <;> omega
      · have hea : entryAt ((ns.set i e') ++ [c]) k = entryAt ns k :=
          entryAt_grow_old ns i k e' c hklen hki
        have hLHS : heapIndices ((ns.set i e') ++ [c]) (f + 1) k
            = k :: (((entryAt ns k).childIds).map
                (heapIndices ((ns.set i e') ++ [c]) f)).flatten := by
          show k :: _ = _
          rw [hea]
        have hRHS : heapIndices ns (f + 1) k
            = k :: (((entryAt ns k).childIds).map (heapIndices ns f)).flatten := rfl
        rw [hLHS, hRHS]
        have hflat := flatten_perm_replicate ns.length i (heapIndices ns f)
          (heapIndices ((ns.set i e') ++ [c]) f) (entryAt ns k).childIds
          (fun j hj => by
            have hb := Hb k (entryAt ns k) hget j hj
            exact ih j (by omega))
        apply List.perm_iff_count.mpr
        intro a
        have hflatc := hflat.count_eq a
        simp only [List.count_cons, List.count_append, List.count_nil,
          List.count_replicate, beq_iff_eq] at hflatc ⊢
        split_ifs at hflatc ⊢ <;> omega
    · rw [heapIndices_oob ns k (by omega)]
      have h0 : (([k] : List Nat).count i) = 0 := by
        simp only [List.count_cons, List.count_nil, Nat.zero_add, beq_iff_eq]
        rw [if_neg (by omega : ¬ k = i)]
      rw [h0]
      simp only [List.replicate_zero, List.nil_append]
      by_cases hkn : k = ns.length
      · subst hkn
        rw [heapIndices_no_children _ _ (by rw [entryAt_grow_new]; exact hc)]
      · rw [heapIndices_oob _ k
          (by simp only [List.length_append, List.length_set, List.length_cons,
                List.length_nil]; omega)]

/-! ## Invariant preservation -/

theorem inv_iter (dir : String → Organization) (rootId : String) (i : Nat)
    (s s' : BuildState) (hinv : Inv dir rootId s)
    (h : buildOrgTreeIter dir i s = some s') : Inv dir rootId s' := by
  obtain ⟨e, v, rest, hi, hp, hs'⟩ := buildOrgTreeIter_eq_some h
  subst hs'
  have hilen : i < s.nodes.length := by
    rcases List.getElem?_eq_some.mp hi with ⟨hl, _⟩
    exact hl
  have h0len : 0 < s.nodes.length := List.length_pos.mpr hinv.nonempty
  have hfid : ∀ k, k < s.nodes.length →
      fidAt ((s.nodes.set i { e with childIds := e.childIds ++ [s.nodes.length], pending := rest }) ++ [newEntry dir v]) k = fidAt s.nodes k := by
    intro k hk
    by_cases hki : k = i
    · subst hki
      unfold fidAt
      rw [entryAt_grow_self _ _ _ _ hilen, entryAt_of_get _ _ _ hi]
    · unfold fidAt
      rw [entryAt_grow_old _ _ _ _ _ hk hki]
  have hfidn : fidAt ((s.nodes.set i { e with childIds := e.childIds ++ [s.nodes.length], pending := rest }) ++ [newEntry dir v]) s.nodes.length = v := by
    unfold fidAt
    rw [entryAt_grow_new]
    rfl
  refine ⟨?_, ?_, ?_, ?_, ?_, ?_, ?_, ?_, ?_⟩
  · simp
  · rw [hfid 0 h0len]
    exact hinv.rootFid
  · intro k ek hk
    rcases grow_get _ _ _ _ _ _ hilen hk with ⟨_, _, hold⟩ | ⟨_, hek⟩ | ⟨_, hek⟩
    · exact hinv.orgEq k ek hold
    · subst hek
      exact hinv.orgEq i e hi
    · subst hek
      rfl
  · intro k ek hk
    rcases grow_get _ _ _ _ _ _ hilen hk with ⟨hklt, hkne, hold⟩ | ⟨hke, hek⟩ | ⟨_, hek⟩
    · have hmc : ek.childIds.map (fidAt ((s.nodes.set i { e with childIds := e.childIds ++ [s.nodes.length], pending := rest }) ++ [newEntry dir v]))
          = ek.childIds.map (fidAt s.nodes) :=
        List.map_congr_left (fun j hj => hfid j (hinv.bounds k ek hold j hj).2)
      rw [hmc]
      exact hinv.splitIds k ek hold
    · subst hek
      have hmc : e.childIds.map (fidAt ((s.nodes.set i { e with childIds := e.childIds ++ [s.nodes.length], pending := rest }) ++ [newEntry dir v]))
          = e.childIds.map (fidAt s.nodes) :=
        List.map_congr_left (fun j hj => hfid j (hinv.bounds i e hi j hj).2)
      show e.org.subOrganizationIds = _
      rw [List.map_append, hmc]
      simp only [List.map_cons, List.map_nil]
      rw [hfidn]
      rw [hinv.splitIds i e hi, hp]
      simp
    · subst hek
      simp [newEntry]
  · intro k ek hk
    rcases grow_get _ _ _ _ _ _ hilen hk with ⟨hklt, hkne, hold⟩ | ⟨hke, hek⟩ | ⟨_, hek⟩
    · intro j hj
      have hb := hinv.bounds k ek hold j hj
      constructor
      · exact hb.1
      · simp only [List.length_append, List.length_set, List.length_cons, List.length_nil]
        omega
    · subst hek hke
      intro j hj
      simp only [List.length_append, List.length_set, List.length_cons, List.length_nil]
      rcases List.mem_append.mp hj with hj | hj
      · have hb := hinv.bounds _ e hi j hj
        exact ⟨hb.1, by omega⟩
      · simp at hj
        subst hj
        exact ⟨hilen, by omega⟩
    · subst hek
      intro j hj
      simp [newEntry] at hj
  · intro k ek hk
    rcases grow_get _ _ _ _ _ _ hilen hk with ⟨_, _, hold⟩ | ⟨_, hek⟩ | ⟨_, hek⟩
    · exact hinv.chSorted k ek hold
    · subst hek
      show (e.childIds ++ [s.nodes.length]).Pairwise (· < ·)
      rw [List.pairwise_append]
      refine ⟨hinv.chSorted i e hi, by simp, ?_⟩
      intro a ha b hb
      simp at hb
      subst hb
      exact (hinv.bounds i e hi a ha).2
    · subst hek
      simp [newEntry]
  · intro k ek hk
    rcases grow_get _ _ _ _ _ _ hilen hk with ⟨_, _, hold⟩ | ⟨_, hek⟩ | ⟨_, hek⟩
    · exact hinv.finPending k ek hold
    · subst hek
      intro hf
      have := hinv.finPending i e hi hf
      rw [hp] at this
      cases this
    · subst hek
      intro hf
      simp [newEntry] at hf
  · show s.counter + 1 = _
    rw [List.filter_append]
    simp only [List.length_append]
    rw [filter_length_set_congr (fun x => !x.finished) s.nodes i e { e with childIds := e.childIds ++ [s.nodes.length], pending := rest } hi rfl]
    rw [← hinv.counterEq]
    simp [newEntry]
  · have hlen : ∀ x c : NodeEntry, ((s.nodes.set i x) ++ [c]).length = s.nodes.length + 1 := by
      intro x c
      simp
    rw [hlen]
    have hsp := heapIndices_splice s.nodes i e { e with childIds := e.childIds ++ [s.nodes.length], pending := rest } (newEntry dir v) hi rfl rfl hinv.bounds
      (s.nodes.length + 1) 0 (by omega)
    have hst := heapIndices_stable s.nodes hinv.bounds (s.nodes.length + 1)
      s.nodes.length 0 (by omega) (by omega)
    rw [hst] at hsp
    have hcount : (heapIndices s.nodes s.nodes.length 0).count i = 1 := by
      rw [hinv.perm.count_eq i]
      exact List.count_eq_one_of_mem (List.nodup_range _) (List.mem_range.mpr hilen)
    rw [hcount] at hsp
    refine hsp.trans ?_
    rw [List.replicate_one, List.range_succ]
    exact (List.Perm.append_left [s.nodes.length] hinv.perm).trans List.perm_append_comm

theorem inv_done (dir : String → Organization) (rootId : String) (i : Nat)
    (s s' : BuildState) (hinv : Inv dir rootId s)
    (h : buildOrgTreeDone i s = some s') : Inv dir rootId s' := by
  obtain ⟨e, hi, hp, hf, hs'⟩ := buildOrgTreeDone_eq_some h
  subst hs'
  have hilen : i < s.nodes.length := by
    rcases List.getElem?_eq_some.mp hi with ⟨hl, _⟩
    exact hl
  have h0len : 0 < s.nodes.length := List.length_pos.mpr hinv.nonempty
  have hfid : ∀ k, fidAt (s.nodes.set i { e with finished := true }) k
      = fidAt s.nodes k := by
    intro k
    by_cases hki : k = i
    · subst hki
      unfold fidAt
      rw [entryAt_set_self _ _ _ hilen, entryAt_of_get _ _ _ hi]
    · unfold fidAt
      rw [entryAt_set_ne _ _ _ _ hki]
  have hch : ∀ k, (entryAt (s.nodes.set i { e with finished := true }) k).childIds
      = (entryAt s.nodes k).childIds := by
    intro k
    by_cases hki : k = i
    · subst hki
      rw [entryAt_set_self _ _ _ hilen, entryAt_of_get _ _ _ hi]
    · rw [entryAt_set_ne _ _ _ _ hki]
  refine ⟨?_, ?_, ?_, ?_, ?_, ?_, ?_, ?_, ?_⟩
  · apply List.ne_nil_of_length_pos
    rw [List.length_set]
    exact h0len
  · rw [hfid 0]
    exact hinv.rootFid
  · intro k ek hk
    rcases set_get _ _ _ _ _ hilen hk with ⟨_, hold⟩ | ⟨_, hek⟩
    · exact hinv.orgEq k ek hold
    · subst hek
      exact hinv.orgEq i e hi
  · intro k ek hk
    rcases set_get _ _ _ _ _ hilen hk with ⟨_, hold⟩ | ⟨_, hek⟩
    · have hmc : ek.childIds.map (fidAt (s.nodes.set i { e with finished := true }))
          = ek.childIds.map (fidAt s.nodes) := List.map_congr_left (fun j _ => hfid j)
      rw [hmc]
      exact hinv.splitIds k ek hold
    · subst hek
      have hmc : e.childIds.map (fidAt (s.nodes.set i { e with finished := true }))
          = e.childIds.map (fidAt s.nodes) := List.map_congr_left (fun j _ => hfid j)
      show e.org.subOrganizationIds = _
      rw [hmc]
      exact hinv.splitIds i e hi
  · intro k ek hk
    rcases set_get _ _ _ _ _ hilen hk with ⟨_, hold⟩ | ⟨hke, hek⟩
    · intro j hj
      have hb := hinv.bounds k ek hold j hj
      rw [List.length_set]
      exact hb
    · subst hek hke
      intro j hj
      have hb := hinv.bounds _ e hi j hj
      rw [List.length_set]
      exact hb
  · intro k ek hk
    rcases set_get _ _ _ _ _ hilen hk with ⟨_, hold⟩ | ⟨_, hek⟩
    · exact hinv.chSorted k ek hold
    · subst hek
      exact hinv.chSorted i e hi
  · intro k ek hk
    rcases set_get _ _ _ _ _ hilen hk with ⟨_, hold⟩ | ⟨_, hek⟩
    · exact hinv.finPending k ek hold
    · subst hek
      intro _
      exact hp
  · show s.counter - 1
        = (List.filter (fun x => !x.finished) (s.nodes.set i { e with finished := true })).length
    have hflip := filter_length_set_flip (fun x => !x.finished) s.nodes i e
      { e with finished := true } hi (by simp [hf]) rfl
    rw [← hinv.counterEq] at hflip
    omega
  · rw [List.length_set]
    rw [heapIndices_congr _ _ hch]
    exact hinv.perm

theorem inv_step (dir : String → Organization) (rootId : String)
    (s s' : BuildState) (hinv : Inv dir rootId s) (h : BuildStep dir s s') :
    Inv dir rootId s' := by
  cases h with
  | iter i _ _ hit => exact inv_iter dir rootId i s s' hinv hit
  | didFinish i _ _ hd => exact inv_done dir rootId i s s' hinv hd

theorem inv_reachable (dir : String → Organization) (rootId : String)
    (s : BuildState) (h : Reachable dir rootId s) : Inv dir rootId s := by
  induction h with
  | refl => exact inv_init dir rootId
  | tail _ hstep ih => exact inv_step dir rootId _ _ ih hstep

/-! ## Consequences at quiescence (`g.Wait()` has returned) -/

theorem final_all_finished (dir : String → Organization) (rootId : String)
    (s : BuildState) (h : Reachable dir rootId s) (hc : s.counter = 0) :
    ∀ (i : Nat) (e : NodeEntry), s.nodes[i]? = some e → e.finished = true := by
  have hinv := inv_reachable dir rootId s h
  have hcnt := hinv.counterEq
  rw [hc] at hcnt
  intro i e he
  by_contra hf
  have hfin : e.finished = false := by
    cases hef : e.finished
    · rfl
    · exact absurd hef hf
  have hmem : e ∈ s.nodes := by
    rcases List.getElem?_eq_some.mp he with ⟨hl, hg⟩
    exact hg ▸ List.getElem_mem hl
  have hmf : e ∈ s.nodes.filter (fun x => !x.finished) :=
    List.mem_filter.mpr ⟨hmem, by rw [hfin]; rfl⟩
  have : s.nodes.filter (fun x => !x.finished) = [] :=
    List.length_eq_zero.mp hcnt.symm
  rw [this] at hmf
  cases hmf

theorem final_children_exact (dir : String → Organization) (rootId : String)
    (s : BuildState) (h : Reachable dir rootId s) (hc : s.counter = 0) :
    ∀ (i : Nat) (e : NodeEntry), s.nodes[i]? = some e →
      e.childIds.map (fidAt s.nodes) = e.org.subOrganizationIds := by
  intro i e he
  have hinv := inv_reachable dir rootId s h
  have hfin := final_all_finished dir rootId s h hc i e he
  have hpend := hinv.finPending i e he hfin
  have hsplit := hinv.splitIds i e he
  rw [hpend, List.append_nil] at hsplit
  exact hsplit.symm

theorem final_depthLe (dir : String → Organization) (rootId : String)
    (s : BuildState) (h : Reachable dir rootId s) (hc : s.counter = 0) :
    ∀ (f i : Nat), s.nodes.length ≤ f + i + 1 → i < s.nodes.length →
      depthLe dir f (fidAt s.nodes i) := by
  have hinv := inv_reachable dir rootId s h
  intro f
  induction f with
  | zero =>
    intro i hfi hi
    show (dir (fidAt s.nodes i)).subOrganizationIds = []
    have he := get_entryAt s.nodes i hi
    have horg : (entryAt s.nodes i).org = dir (fidAt s.nodes i) := hinv.orgEq i _ he
    rw [← horg, ← final_children_exact dir rootId s h hc i _ he]
    have hnil : (entryAt s.nodes i).childIds = [] := by
      cases hcs : (entryAt s.nodes i).childIds with
      | nil => rfl
      | cons j js =>
        have hb := hinv.bounds i _ he j (by rw [hcs]; exact List.mem_cons_self _ _)
        omega
    rw [hnil]
    rfl
  | succ f ih =>
    intro i hfi hi
    show ∀ w ∈ (dir (fidAt s.nodes i)).subOrganizationIds, depthLe dir f w
    intro w hw
    have he := get_entryAt s.nodes i hi
    have horg : (entryAt s.nodes i).org = dir (fidAt s.nodes i) := hinv.orgEq i _ he
    rw [← horg, ← final_children_exact dir rootId s h hc i _ he] at hw
    rcases List.mem_map.mp hw with ⟨j, hj, hwj⟩
    have hb := hinv.bounds i _ he j hj
    subst hwj
    exact ih j (by omega) hb.2

theorem specCount_stable (dir : String → Organization) :
    ∀ (d : Nat) (v : String), depthLe dir d v → ∀ f, d ≤ f →
      specCount dir f v = specCount dir d v := by
  intro d
  induction d with
  | zero =>
    intro v hd f _
    cases f with
    | zero => rfl
    | succ g =>
      show 1 + ((dir v).subOrganizationIds.map (specCount dir g)).sum = 1
      have h0 : (dir v).subOrganizationIds = [] := hd
      rw [h0]
      rfl
  | succ d ih =>
    intro v hd f hf
    cases f with
    | zero => omega
    | succ g =>
      show 1 + ((dir v).subOrganizationIds.map (specCount dir g)).sum
         = 1 + ((dir v).subOrganizationIds.map (specCount dir d)).sum
      have hmc : (dir v).subOrganizationIds.map (specCount dir g)
          = (dir v).subOrganizationIds.map (specCount dir d) :=
        List.map_congr_left (fun w hw => ih w (hd w hw) g (by omega))
      rw [hmc]

theorem heapIndices_length_spec (dir : String → Organization) (rootId : String)
    (s : BuildState) (h : Reachable dir rootId s) (hc : s.counter = 0) :
    ∀ (f i : Nat), i < s.nodes.length →
      (heapIndices s.nodes f i).length = specCount dir f (fidAt s.nodes i) := by
  have hinv := inv_reachable dir rootId s h
  intro f
  induction f with
  | zero => intro i _; rfl
  | succ f ih =>
    intro i hi
    have he := get_entryAt s.nodes i hi
    show (i :: ((entryAt s.nodes i).childIds.map (heapIndices s.nodes f)).flatten).length
        = 1 + ((dir (fidAt s.nodes i)).subOrganizationIds.map (specCount dir f)).sum
    have horg : (entryAt s.nodes i).org = dir (fidAt s.nodes i) := hinv.orgEq i _ he
    rw [← horg, ← final_children_exact dir rootId s h hc i _ he]
    simp only [List.length_cons, List.length_flatten, List.map_map]
    have hmc : (entryAt s.nodes i).childIds.map (List.length ∘ heapIndices s.nodes f)
        = (entryAt s.nodes i).childIds.map (specCount dir f ∘ fidAt s.nodes) := by
      apply List.map_congr_left
      intro j hj
      have hb := hinv.bounds i _ he j hj
      show (heapIndices s.nodes f j).length = specCount dir f (fidAt s.nodes j)
      exact ih j hb.2
    rw [hmc]
    omega

theorem final_count (dir : String → Organization) (rootId : String)
    (s : BuildState) (h : Reachable dir rootId s) (hc : s.counter = 0)
    (f : Nat) (hd : depthLe dir f rootId) :
    s.nodes.length = specCount dir f rootId := by
  have hinv := inv_reachable dir rootId s h
  have h0 : 0 < s.nodes.length := List.length_pos.mpr hinv.nonempty
  have hlenHI : (heapIndices s.nodes s.nodes.length 0).length = s.nodes.length := by
    rw [hinv.perm.length_eq]
    exact List.length_range _
  have hspec := heapIndices_length_spec dir rootId s h hc s.nodes.length 0 h0
  rw [hinv.rootFid] at hspec
  have h1 : s.nodes.length = specCount dir s.nodes.length rootId :=
    hlenHI.symm.trans hspec
  have hdl : depthLe dir s.nodes.length rootId := by
    have hroot := final_depthLe dir rootId s h hc s.nodes.length 0 (by omega) h0
    rw [hinv.rootFid] at hroot
    exact hroot
  have h2 := specCount_stable dir s.nodes.length rootId hdl (s.nodes.length + f) (by omega)
  have h3 := specCount_stable dir f rootId hd (s.nodes.length + f) (by omega)
  omega

/-! ## Properties of `mapSet` -/

theorem mapSet_not_mem (m : List (String × Organization)) (k : String)
    (v : Organization) (h : ∀ p ∈ m, p.1 ≠ k) : mapSet m k v = m ++ [(k, v)] := by
  have hne : ¬ (m.any (fun p => p.1 == k) = true) := by
    intro hany
    rcases List.any_eq_true.mp hany with ⟨p, hp, hpk⟩
    exact h p hp (beq_iff_eq.mp hpk)
  unfold mapSet
  rw [if_neg hne]

theorem mapSet_keys_of_mem (m : List (String × Organization)) (k : String)
    (v : Organization) (h : m.any (fun p => p.1 == k) = true) :
    (mapSet m k v).map Prod.fst = m.map Prod.fst := by
  unfold mapSet
  rw [if_pos h, List.map_map]
  apply List.map_congr_left
  intro p hp
  by_cases hpk : p.1 = k
  · simp [hpk]
  · simp [hpk]

theorem mem_mapSet_keys (m : List (String × Organization)) (k : String)
    (v : Organization) (x : String) :
    x ∈ (mapSet m k v).map Prod.fst ↔ x ∈ m.map Prod.fst ∨ x = k := by
  by_cases hany : m.any (fun p => p.1 == k) = true
  · rw [mapSet_keys_of_mem m k v hany]
    rcases List.any_eq_true.mp hany with ⟨p, hp, hpk⟩
    have hk : k ∈ m.map Prod.fst := List.mem_map.mpr ⟨p, hp, beq_iff_eq.mp hpk⟩
    constructor
    · exact Or.inl
    · rintro (hx | rfl)
      · exact hx
      · exact hk
  · have hnm : ∀ p ∈ m, p.1 ≠ k := by
      intro p hp hpk
      exact hany (List.any_eq_true.mpr ⟨p, hp, beq_iff_eq.mpr hpk⟩)
    rw [mapSet_not_mem m k v hnm, List.map_append]
    simp

theorem mapSet_keys_nodup (m : List (String × Organization)) (k : String)
    (v : Organization) (h : (m.map Prod.fst).Nodup) :
    ((mapSet m k v).map Prod.fst).Nodup := by
  by_cases hany : m.any (fun p => p.1 == k) = true
  · rw [mapSet_keys_of_mem m k v hany]
    exact h
  · have hnm : ∀ p ∈ m, p.1 ≠ k := by
      intro p hp hpk
      exact hany (List.any_eq_true.mpr ⟨p, hp, beq_iff_eq.mpr hpk⟩)
    rw [mapSet_not_mem m k v hnm, List.map_append]
    refine List.nodup_append.mpr ⟨h, by simp, ?_⟩
    intro a ha hb
    simp only [List.map_cons, List.map_nil, List.mem_singleton] at hb
    subst hb
    rcases List.mem_map.mp ha with ⟨p, hp, hpa⟩
    exact hnm p hp hpa

/-! ## Keys of the flattened map -/

theorem treeNamesList_cons (c : Node) (cs : List Node) :
    treeNamesList (c :: cs) = treeNames c ++ treeNamesList cs := by
  simp [treeNamesList, treeOrgsList, treeNames]

theorem treeNames_mk (o : Organization) (cs : List Node) :
    treeNames (Node.mk o cs) = o.name :: treeNamesList cs := by
  simp [treeNames, treeOrgs, treeNamesList]

theorem flattenTreeList_keys_nodup (cs : List Node)
    (ih : ∀ c ∈ cs, ∀ m, (m.map Prod.fst).Nodup →
      ((flattenTree c m).map Prod.fst).Nodup) :
    ∀ m, (m.map Prod.fst).Nodup → ((flattenTreeList cs m).map Prod.fst).Nodup := by
  induction cs with
  | nil => intro m hm; exact hm
  | cons c cs ihl =>
    intro m hm
    show ((flattenTreeList cs (flattenTree c m)).map Prod.fst).Nodup
    exact ihl (fun d hd => ih d (List.mem_cons_of_mem c hd)) _
      (ih c (List.mem_cons_self c cs) m hm)

theorem flattenTree_keys_nodup : ∀ t : Node, ∀ m, (m.map Prod.fst).Nodup →
    ((flattenTree t m).map Prod.fst).Nodup := by
  apply Node.ind
  intro o cs ih m hm
  show ((flattenTreeList cs (mapSet m o.name o)).map Prod.fst).Nodup
  exact flattenTreeList_keys_nodup cs ih _ (mapSet_keys_nodup m o.name o hm)

theorem flattenTreeList_keys_mem (cs : List Node)
    (ih : ∀ c ∈ cs, ∀ m x, x ∈ (flattenTree c m).map Prod.fst ↔
      x ∈ m.map Prod.fst ∨ x ∈ treeNames c) :
    ∀ m x, x ∈ (flattenTreeList cs m).map Prod.fst ↔
      x ∈ m.map Prod.fst ∨ x ∈ treeNamesList cs := by
  induction cs with
  | nil =>
    intro m x
    show x ∈ m.map Prod.fst ↔ x ∈ m.map Prod.fst ∨ x ∈ treeNamesList []
    simp [treeNamesList, treeOrgsList]
  | cons c cs ihl =>
    intro m x
    show x ∈ (flattenTreeList cs (flattenTree c m)).map Prod.fst ↔ _
    rw [ihl (fun d hd => ih d (List.mem_cons_of_mem c hd)) (flattenTree c m) x]
    rw [ih c (List.mem_cons_self c cs) m x]
    rw [treeNamesList_cons]
    simp only [List.mem_append]
    tauto

theorem flattenTree_keys_mem : ∀ t : Node, ∀ m x,
    x ∈ (flattenTree t m).map Prod.fst ↔ x ∈ m.map Prod.fst ∨ x ∈ treeNames t := by
  apply Node.ind
  intro o cs ih m x
  show x ∈ (flattenTreeList cs (mapSet m o.name o)).map Prod.fst ↔ _
  rw [flattenTreeList_keys_mem cs ih (mapSet m o.name o) x, mem_mapSet_keys]
  rw [treeNames_mk]
  simp only [List.mem_cons]
  tauto

/-! ## Flattening with pairwise-distinct display names -/

theorem flattenTreeList_acc (cs : List Node)
    (ih : ∀ c ∈ cs, ∀ m, ((m.map Prod.fst) ++ treeNames c).Nodup →
      flattenTree c m = m ++ (treeOrgs c).map (fun o => (o.name, o))) :
    ∀ m, ((m.map Prod.fst) ++ treeNamesList cs).Nodup →
      flattenTreeList cs m = m ++ (treeOrgsList cs).map (fun o => (o.name, o)) := by
  induction cs with
  | nil =>
    intro m hm
    show m = m ++ _
    simp [treeOrgsList]
  | cons c cs ihl =>
    intro m hm
    rw [treeNamesList_cons] at hm
    show flattenTreeList cs (flattenTree c m) = _
    have h1 : flattenTree c m = m ++ (treeOrgs c).map (fun o => (o.name, o)) := by
      apply ih c (List.mem_cons_self c cs)
      refine List.Nodup.sublist ?_ hm
      exact (List.sublist_append_left _ _).append_left _
    have hkeys : ((m ++ (treeOrgs c).map (fun o => (o.name, o))).map Prod.fst)
        = m.map Prod.fst ++ treeNames c := by
      rw [List.map_append, List.map_map]
      rfl
    have h2 : flattenTreeList cs (m ++ (treeOrgs c).map (fun o => (o.name, o)))
        = (m ++ (treeOrgs c).map (fun o => (o.name, o)))
            ++ (treeOrgsList cs).map (fun o => (o.name, o)) := by
      apply ihl (fun d hd => ih d (List.mem_cons_of_mem c hd))
      rw [hkeys, List.append_assoc]
      exact hm
    rw [h1, h2]
    show _ = m ++ (treeOrgs c ++ treeOrgsList cs).map (fun o => (o.name, o))
    rw [List.map_append, List.append_assoc]

theorem flattenTree_acc : ∀ t : Node, ∀ m, ((m.map Prod.fst) ++ treeNames t).Nodup →
    flattenTree t m = m ++ (treeOrgs t).map (fun o => (o.name, o)) := by
  apply Node.ind
  intro o cs ih m hm
  rw [treeNames_mk] at hm
  have hdisj := List.disjoint_of_nodup_append hm
  have hnot : ∀ p ∈ m, p.1 ≠ o.name := by
    intro p hp hpk
    have hin : p.1 ∈ m.map Prod.fst := List.mem_map.mpr ⟨p, hp, rfl⟩
    exact hdisj hin (by rw [hpk]; exact List.mem_cons_self _ _)
  show flattenTreeList cs (mapSet m o.name o) = _
  rw [mapSet_not_mem m o.name o hnot]
  have hacc := flattenTreeList_acc cs ih (m ++ [(o.name, o)]) ?_
  · rw [hacc]
    show _ = m ++ (o :: treeOrgsList cs).map (fun o => (o.name, o))
    simp [List.append_assoc]
  · rw [List.map_append]
    show ((m.map Prod.fst ++ [o.name]) ++ treeNamesList cs).Nodup
    rw [List.append_assoc]
    exact hm

/-! ## Enrichment -/

theorem generateApplicationsList_idem (deployed : String → List Application)
    (cs : List Node)
    (ih : ∀ c ∈ cs, generateApplications deployed (generateApplications deployed c)
      = generateApplications deployed c) :
    generateApplicationsList deployed (generateApplicationsList deployed cs)
      = generateApplicationsList deployed cs := by
  induction cs with
  | nil => rfl
  | cons c cs ihl =>
    show generateApplications deployed (generateApplications deployed c)
        :: generateApplicationsList deployed (generateApplicationsList deployed cs) = _
    rw [ih c (List.mem_cons_self c cs),
      ihl (fun d hd => ih d (List.mem_cons_of_mem c hd))]
    rfl

theorem generateApplications_idem_aux (deployed : String → List Application) :
    ∀ t : Node, generateApplications deployed (generateApplications deployed t)
      = generateApplications deployed t := by
  apply Node.ind
  intro o cs ih
  have henv : List.map (fun environment : Environment => { environment with applications := deployed environment.id }) (List.map (fun environment : Environment => { environment with applications := deployed environment.id }) o.environments) = List.map (fun environment : Environment => { environment with applications := deployed environment.id }) o.environments := by
    rw [List.map_map]
    apply List.map_congr_left
    intro e _
    rfl
  show Node.mk { o with environments := List.map (fun environment : Environment => { environment with applications := deployed environment.id }) (List.map (fun environment : Environment => { environment with applications := deployed environment.id }) o.environments) } (generateApplicationsList deployed (generateApplicationsList deployed cs)) = Node.mk { o with environments := List.map (fun environment : Environment => { environment with applications := deployed environment.id }) o.environments } (generateApplicationsList deployed cs)
  rw [henv, generateApplicationsList_idem deployed cs ih]

/-! ## Losing entries on duplicate display names -/

theorem flattenTree_dup_shorter (t : Node) (h : ¬ (treeNames t).Nodup) :
    (flattenTree t []).length < (treeOrgs t).length := by
  have hkeysN : ((flattenTree t []).map Prod.fst).Nodup :=
    flattenTree_keys_nodup t [] (by simp)
  have hsub : (flattenTree t []).map Prod.fst ⊆ (treeNames t).dedup := by
    intro x hx
    rw [List.mem_dedup]
    have := (flattenTree_keys_mem t [] x).mp hx
    simpa using this
  have hsp := List.subperm_of_subset hkeysN hsub
  have hlen1 : ((flattenTree t []).map Prod.fst).length ≤ (treeNames t).dedup.length :=
    hsp.length_le
  have hlt : (treeNames t).dedup.length < (treeNames t).length := by
    have hsl := List.dedup_sublist (treeNames t)
    have hle := hsl.length_le
    by_contra hge
    have heq : (treeNames t).dedup.length = (treeNames t).length := by omega
    have hds := hsl.eq_of_length heq
    rw [List.dedup_eq_self] at hds
    exact h hds
  have he1 : ((flattenTree t []).map Prod.fst).length = (flattenTree t []).length :=
    List.length_map _ _
  have he2 : (treeNames t).length = (treeOrgs t).length := by
    unfold treeNames
    exact List.length_map _ _
  omega

/-! ## Reachability of the concrete runs -/

theorem sOneFin_reachable : Reachable dirOne "org-1" sOneFin :=
  Relation.ReflTransGen.single (BuildStep.didFinish 0 _ _ rfl)

theorem s7mid_reachable : Reachable dir7 "r" s7mid := by
  have h1 : BuildStep dir7 (initTreeState dir7 "r")
      ⟨[⟨"r", orgR, [1], ["b"], false⟩, ⟨"a", orgA, [], [], false⟩], 2⟩ :=
    BuildStep.iter 0 _ _ rfl
  have h2 : BuildStep dir7
      ⟨[⟨"r", orgR, [1], ["b"], false⟩, ⟨"a", orgA, [], [], false⟩], 2⟩
      ⟨[⟨"r", orgR, [1, 2], [], false⟩, ⟨"a", orgA, [], [], false⟩,
        ⟨"b", orgB, [], [], false⟩], 3⟩ :=
    BuildStep.iter 0 _ _ rfl
  have h3 : BuildStep dir7
      ⟨[⟨"r", orgR, [1, 2], [], false⟩, ⟨"a", orgA, [], [], false⟩,
        ⟨"b", orgB, [], [], false⟩], 3⟩ s7mid :=
    BuildStep.didFinish 2 _ _ rfl
  exact Relation.ReflTransGen.tail
    (Relation.ReflTransGen.tail (Relation.ReflTransGen.single h1) h2) h3

theorem s7mid_to_fin : Relation.ReflTransGen (BuildStep dir7) s7mid s7fin := by
  have h4 : BuildStep dir7 s7mid
      ⟨[⟨"r", orgR, [1, 2], [], false⟩, ⟨"a", orgA, [], [], true⟩,
        ⟨"b", orgB, [], [], true⟩], 1⟩ :=
    BuildStep.didFinish 1 _ _ rfl
  have h5 : BuildStep dir7
      ⟨[⟨"r", orgR, [1, 2], [], false⟩, ⟨"a", orgA, [], [], true⟩,
        ⟨"b", orgB, [], [], true⟩], 1⟩ s7fin :=
    BuildStep.didFinish 0 _ _ rfl
  exact Relation.ReflTransGen.tail (Relation.ReflTransGen.single h4) h5

theorem s7fin_reachable : Reachable dir7 "r" s7fin :=
  Relation.ReflTransGen.trans s7mid_reachable s7mid_to_fin

theorem sWFin_reachable : Reachable dirW "rootW" sWFin := by
  have h1 : BuildStep dirW (initTreeState dirW "rootW")
      ⟨[⟨"rootW", orgRootW, [1], [], false⟩,
        ⟨"bad", zeroOrganization, [], [], false⟩], 2⟩ :=
    BuildStep.iter 0 _ _ rfl
  have h2 : BuildStep dirW
      ⟨[⟨"rootW", orgRootW, [1], [], false⟩,
        ⟨"bad", zeroOrganization, [], [], false⟩], 2⟩
      ⟨[⟨"rootW", orgRootW, [1], [], false⟩,
        ⟨"bad", zeroOrganization, [], [], true⟩], 1⟩ :=
    BuildStep.didFinish 1 _ _ rfl
  have h3 : BuildStep dirW
      ⟨[⟨"rootW", orgRootW, [1], [], false⟩,
        ⟨"bad", zeroOrganization, [], [], true⟩], 1⟩ sWFin :=
    BuildStep.didFinish 0 _ _ rfl
  exact Relation.ReflTransGen.tail
    (Relation.ReflTransGen.tail (Relation.ReflTransGen.single h1) h2) h3

/-! ## The claims -/

/-- C1: for every finite, acyclic hierarchy below the root identifier (depth
bounded by `f`), any run of the tree builder that has reached quiescence
(`g.Wait()` returned: `counter = 0`) — under any interleaving/delays of the
individual `getOrganizationMetrics` calls — has allocated exactly as many
nodes as the remote directory reports below the root, the depth-first
traversal from the root visits exactly that many nodes, and every node's
child list carries exactly the child-identifier list the directory returned
for it at discovery time. -/
theorem buildTree_complete (dir : String → Organization) (rootId : String)
    (f : Nat) (s : BuildState) (h : Reachable dir rootId s) (hc : s.counter = 0)
    (hd : depthLe dir f rootId) :
    s.nodes.length = specCount dir f rootId ∧
    (heapIndices s.nodes s.nodes.length 0).length = specCount dir f rootId ∧
    ∀ (i : Nat) (e : NodeEntry), s.nodes[i]? = some e →
      e.childIds.map (fidAt s.nodes) = e.org.subOrganizationIds := by
  have hinv := inv_reachable dir rootId s h
  have h1 := final_count dir rootId s h hc f hd
  refine ⟨h1, ?_, final_children_exact dir rootId s h hc⟩
  rw [hinv.perm.length_eq, List.length_range]
  exact h1

theorem buildTree_complete_witness :
    Reachable dirOne "org-1" sOneFin ∧ sOneFin.counter = 0 ∧
    depthLe dirOne 0 "org-1" ∧
    (sOneFin.nodes.length = specCount dirOne 0 "org-1" ∧
     (heapIndices sOneFin.nodes sOneFin.nodes.length 0).length = specCount dirOne 0 "org-1" ∧
     ∀ (i : Nat) (e : NodeEntry), sOneFin.nodes[i]? = some e →
       e.childIds.map (fidAt sOneFin.nodes) = e.org.subOrganizationIds) :=
  ⟨sOneFin_reachable, rfl, rfl,
    buildTree_complete dirOne "org-1" 0 sOneFin sOneFin_reachable rfl rfl⟩

/-- C2: in every reachable state the `WaitGroup` counter equals the number
of registered-but-not-yet-done `buildOrgTree` tasks — each task runs
`g.Add(1)` for a child before spawning it and `g.Done()` only after its own
loop — so the counter, and hence `g.Wait()` in `InitTree`, cannot observe
zero while any transitively spawned task has not signalled done. -/
theorem waitGroup_counter_never_premature (dir : String → Organization)
    (rootId : String) (s : BuildState) (h : Reachable dir rootId s) :
    s.counter = (s.nodes.filter (fun e => !e.finished)).length ∧
    (s.counter = 0 → ∀ (i : Nat) (e : NodeEntry), s.nodes[i]? = some e →
      e.finished = true) := by
  refine ⟨(inv_reachable dir rootId s h).counterEq, ?_⟩
  intro hc
  exact final_all_finished dir rootId s h hc

theorem waitGroup_counter_never_premature_witness :
    Reachable dir7 "r" s7mid ∧
    (s7mid.counter = (s7mid.nodes.filter (fun e => !e.finished)).length ∧
     (s7mid.counter = 0 → ∀ (i : Nat) (e : NodeEntry), s7mid.nodes[i]? = some e →
       e.finished = true)) :=
  ⟨s7mid_reachable,
    waitGroup_counter_never_premature dir7 "r" s7mid s7mid_reachable⟩

/-- C3: in any reachable state, once the expansion task owning a node has
signalled completion, the node's child list contains exactly one child per
identifier of its discovery payload, in payload order — no duplicate
entries (the child node identities are pairwise distinct) and no missing
ones; when the payload's identifiers are pairwise distinct so are the
children's fetched identifiers. -/
theorem finished_node_children_allOrNothing (dir : String → Organization)
    (rootId : String) (s : BuildState) (i : Nat) (e : NodeEntry)
    (h : Reachable dir rootId s) (he : s.nodes[i]? = some e)
    (hfin : e.finished = true) :
    e.childIds.map (fidAt s.nodes) = e.org.subOrganizationIds ∧
    e.childIds.Nodup ∧
    (e.org.subOrganizationIds.Nodup → (e.childIds.map (fidAt s.nodes)).Nodup) := by
  have hinv := inv_reachable dir rootId s h
  have hpend := hinv.finPending i e he hfin
  have hsplit := hinv.splitIds i e he
  rw [hpend, List.append_nil] at hsplit
  refine ⟨hsplit.symm, ?_, ?_⟩
  · exact (hinv.chSorted i e he).imp (fun hlt => Nat.ne_of_lt hlt)
  · intro hnd
    rw [← hsplit]
    exact hnd

theorem finished_node_children_allOrNothing_witness :
    Reachable dir7 "r" s7fin ∧
    s7fin.nodes[0]? = some ⟨"r", orgR, [1, 2], [], true⟩ ∧
    (([1, 2] : List Nat).map (fidAt s7fin.nodes) = orgR.subOrganizationIds ∧
     ([1, 2] : List Nat).Nodup ∧
     (orgR.subOrganizationIds.Nodup →
       (([1, 2] : List Nat).map (fidAt s7fin.nodes)).Nodup)) :=
  ⟨s7fin_reachable, rfl,
    finished_node_children_allOrNothing dir7 "r" s7fin 0
      ⟨"r", orgR, [1, 2], [], true⟩ s7fin_reachable rfl rfl⟩

/-- C4 (counterexample): a directory resolve (`getOrganizationMetrics`) that
receives HTTP status 500 only logs the status and returns the body to its
caller — the process does not terminate, contradicting the claim that every
non-success remote status is fatal with a non-zero exit. -/
theorem remote_status_fatal_counterexample :
    getOrganizationMetricsStatus (⟨500, ()⟩ : HttpResponse Unit)
      = (FetchOutcome.body (), [("Non-OK HTTP status:", 500)]) := rfl

/-- C4 (amended): only the inventory call (`getDeployedArtifacts`) treats a
non-success status as fatal, printing and exiting with code 1 before
anything is written; the directory call (`getOrganizationMetrics`) prints
the status and continues with whatever body was returned. -/
theorem remote_status_handling {P : Type} (resp : HttpResponse P)
    (h : resp.statusCode ≠ statusOK) :
    getDeployedArtifactsStatus resp
      = (FetchOutcome.processExit 1, [("Non-OK HTTP status:", resp.statusCode)]) ∧
    getOrganizationMetricsStatus resp
      = (FetchOutcome.body resp.body, [("Non-OK HTTP status:", resp.statusCode)]) := by
  unfold getDeployedArtifactsStatus getOrganizationMetricsStatus
  rw [if_pos h, if_pos h]
  exact ⟨rfl, rfl⟩

theorem remote_status_handling_witness :
    ((⟨500, ()⟩ : HttpResponse Unit).statusCode ≠ statusOK) ∧
    (getDeployedArtifactsStatus (⟨500, ()⟩ : HttpResponse Unit)
       = (FetchOutcome.processExit 1, [("Non-OK HTTP status:", 500)]) ∧
     getOrganizationMetricsStatus (⟨500, ()⟩ : HttpResponse Unit)
       = (FetchOutcome.body (), [("Non-OK HTTP status:", 500)])) :=
  ⟨by decide, remote_status_handling (⟨500, ()⟩ : HttpResponse Unit) (by decide)⟩

/-- C5: for a tree whose organizations carry pairwise distinct display
names, `flattenTree` started on the empty map produces exactly one binding
per node — the node's display name mapped to its `Organization` snapshot, in
preorder — so the key list is exactly the list of node names; in particular
the key set does not depend on child insertion order. -/
theorem flattenTree_distinct_names (t : Node) (h : (treeNames t).Nodup) :
    flattenTree t [] = (treeOrgs t).map (fun o => (o.name, o)) ∧
    (flattenTree t []).map Prod.fst = treeNames t := by
  have h1 := flattenTree_acc t [] (by simpa using h)
  have h2 : flattenTree t [] = (treeOrgs t).map (fun o => (o.name, o)) := by
    simpa using h1
  refine ⟨h2, ?_⟩
  rw [h2, List.map_map]
  rfl

theorem flattenTree_distinct_names_witness :
    (treeNames tABC).Nodup ∧
    (flattenTree tABC [] = (treeOrgs tABC).map (fun o => (o.name, o)) ∧
     (flattenTree tABC []).map Prod.fst = treeNames tABC) :=
  ⟨by decide, flattenTree_distinct_names tABC (by decide)⟩

/-- C6: `flattenTree` keys the flat map by display name, not by unique
identity: its key list is always duplicate-free, so for any tree in which
the display names repeat (two distinct organizations sharing a name) the
flattened map has strictly fewer entries than the tree has nodes — one
organization's snapshot is silently lost. -/
theorem flattenTree_duplicate_name_loses (t : Node) (h : ¬ (treeNames t).Nodup) :
    ((flattenTree t []).map Prod.fst).Nodup ∧
    (flattenTree t []).length < (treeOrgs t).length :=
  ⟨flattenTree_keys_nodup t [] (by simp), flattenTree_dup_shorter t h⟩

theorem flattenTree_duplicate_name_loses_witness :
    (¬ (treeNames tXX).Nodup) ∧
    (((flattenTree tXX []).map Prod.fst).Nodup ∧
     (flattenTree tXX []).length < (treeOrgs tXX).length) :=
  ⟨by decide, flattenTree_duplicate_name_loses tXX (by decide)⟩

/-- C7 (counterexample): with the hierarchy `r → [a, b]` there is a run in
which the task for `"b"` completes before the task for `"a"` (state
`s7mid`), yet the root's child list in the completed run is `["a", "b"]` —
and no completed run can produce any order other than the discovery order
`["a", "b"]`.  Hence append order does not reflect task-completion order. -/
theorem childOrder_claim_counterexample :
    Reachable dir7 "r" s7mid ∧
    (entryAt s7mid.nodes 2).fetchedId = "b" ∧
    (entryAt s7mid.nodes 2).finished = true ∧
    (entryAt s7mid.nodes 1).fetchedId = "a" ∧
    (entryAt s7mid.nodes 1).finished = false ∧
    Relation.ReflTransGen (BuildStep dir7) s7mid s7fin ∧ s7fin.counter = 0 ∧
    (entryAt s7fin.nodes 0).childIds.map (fidAt s7fin.nodes) = ["a", "b"] ∧
    ¬ ∃ s : BuildState, Reachable dir7 "r" s ∧ s.counter = 0 ∧
      (entryAt s.nodes 0).childIds.map (fidAt s.nodes) ≠ ["a", "b"] := by
  refine ⟨s7mid_reachable, rfl, rfl, rfl, rfl, s7mid_to_fin, rfl, rfl, ?_⟩
  rintro ⟨s, hs, hc, hne⟩
  apply hne
  have hinv := inv_reachable dir7 "r" s hs
  have h0 : 0 < s.nodes.length := List.length_pos.mpr hinv.nonempty
  have he := get_entryAt s.nodes 0 h0
  have hex := final_children_exact dir7 "r" s hs hc 0 _ he
  rw [hex]
  have horg : (entryAt s.nodes 0).org = dir7 (fidAt s.nodes 0) := hinv.orgEq 0 _ he
  rw [horg, hinv.rootFid]
  rfl

/-- C7 (amended): within a single node's child list, append order equals the
discovery order: at every reachable state the child list is, in payload
order, a prefix of the node's `SubOrganizationIds` — the parent's own task
performs all appends sequentially, so scheduling never changes the order. -/
theorem children_append_order_is_discovery_order (dir : String → Organization)
    (rootId : String) (s : BuildState) (h : Reachable dir rootId s) :
    ∀ (i : Nat) (e : NodeEntry), s.nodes[i]? = some e →
      e.childIds.map (fidAt s.nodes)
        = e.org.subOrganizationIds.take e.childIds.length := by
  intro i e he
  have hinv := inv_reachable dir rootId s h
  have hsplit := hinv.splitIds i e he
  rw [hsplit]
  rw [show e.childIds.length = (e.childIds.map (fidAt s.nodes)).length from
    (List.length_map _ _).symm]
  exact (List.take_left _ _).symm

theorem children_append_order_is_discovery_order_witness :
    Reachable dir7 "r" s7mid ∧ s7mid.nodes[0]? = some ⟨"r", orgR, [1, 2], [], false⟩ ∧
    ([1, 2] : List Nat).map (fidAt s7mid.nodes)
      = orgR.subOrganizationIds.take ([1, 2] : List Nat).length :=
  ⟨s7mid_reachable, rfl,
    children_append_order_is_discovery_order dir7 "r" s7mid s7mid_reachable 0
      ⟨"r", orgR, [1, 2], [], false⟩ rfl⟩

/-- C8: enriching the same tree twice with the remote inventory returning
the same payloads yields the same tree as enriching it once: every
environment's `Applications` field is overwritten with the fetched list, so
re-population cannot duplicate items. -/
theorem generateApplications_idempotent (deployed : String → List Application)
    (t : Node) :
    generateApplications deployed (generateApplications deployed t)
      = generateApplications deployed t :=
  generateApplications_idem_aux deployed t

/-- C9: when any required flag (`rootid`, `username`, `password`) is empty,
`main` reports the error and exits with status 1 before any remote work: its
outcome makes no remote call and writes no output file, whatever the rest of
`main` would have done. -/
theorem missing_config_fails_before_work (rootid username password : String)
    (rest : MainOutcome) (h : rootid = "" ∨ username = "" ∨ password = "") :
    mainRun rootid username password rest
      = { exitCode := 1, remoteCalls := [], filesWritten := [] } := by
  unfold mainRun
  rw [if_pos h]

theorem missing_config_fails_before_work_witness :
    (("" : String) = "" ∨ ("user" : String) = "" ∨ ("pw" : String) = "") ∧
    mainRun "" "user" "pw" ⟨0, ["call"], ["file"]⟩
      = { exitCode := 1, remoteCalls := [], filesWritten := [] } :=
  ⟨Or.inl rfl,
    missing_config_fails_before_work "" "user" "pw" ⟨0, ["call"], ["file"]⟩ (Or.inl rfl)⟩

/-- C10: a payload that cannot be decoded is silently discarded —
`json.Unmarshal`'s error is dropped, so the builder still creates a node for
that identifier carrying the zero-value `Organization`, the node's task
signals completion normally and the traversal completes: in any quiescent
run, every node fetched from an undecodable identifier carries the zero
organization, an empty child list and empty pending list, and has signalled
done; no decode error is surfaced anywhere. -/
theorem decode_error_silently_discarded {P : Type} (fetch : String → P)
    (unm : P → Option Organization) (rootId bad : String)
    (hbad : unm (fetch bad) = none) (s : BuildState)
    (h : Reachable (resolveOrganization fetch unm) rootId s) (hc : s.counter = 0) :
    ∀ (i : Nat) (e : NodeEntry), s.nodes[i]? = some e → e.fetchedId = bad →
      e.org = zeroOrganization ∧ e.childIds = [] ∧ e.pending = [] ∧
        e.finished = true := by
  intro i e he hf
  have hinv := inv_reachable _ _ _ h
  have horg : e.org = zeroOrganization := by
    rw [hinv.orgEq i e he, hf]
    unfold resolveOrganization
    rw [hbad]
    rfl
  have hfin := final_all_finished _ _ _ h hc i e he
  have hpend := hinv.finPending i e he hfin
  have hsplit := hinv.splitIds i e he
  rw [horg, hpend, List.append_nil] at hsplit
  have hz : zeroOrganization.subOrganizationIds = [] := rfl
  rw [hz] at hsplit
  exact ⟨horg, List.map_eq_nil_iff.mp hsplit.symm, hpend, hfin⟩

theorem decode_error_silently_discarded_witness :
    unmarshalW ((fun x : String => x) "bad") = none ∧
    Reachable dirW "rootW" sWFin ∧ sWFin.counter = 0 ∧
    sWFin.nodes[1]? = some ⟨"bad", zeroOrganization, [], [], true⟩ ∧
    ((⟨"bad", zeroOrganization, [], [], true⟩ : NodeEntry).org = zeroOrganization ∧
     (⟨"bad", zeroOrganization, [], [], true⟩ : NodeEntry).childIds = [] ∧
     (⟨"bad", zeroOrganization, [], [], true⟩ : NodeEntry).pending = [] ∧
     (⟨"bad", zeroOrganization, [], [], true⟩ : NodeEntry).finished = true) :=
  ⟨rfl, sWFin_reachable, rfl, rfl,
    decode_error_silently_discarded (fun x : String => x) unmarshalW "rootW" "bad"
      rfl sWFin sWFin_reachable rfl 1 ⟨"bad", zeroOrganization, [], [], true⟩ rfl rfl⟩

end Chgentree
